import Mathlib

/-!
Shallow embedding of the telemetry generator in `src/main.py`: the waypoint
interpolation routine (`interpolate_path`, lines 103-130), the tick-to-progress
and angle maps of the periodic send loop (lines 132-144), the construction
contract of the spec, and the RX write handler (lines 50-55).

Python floats are modelled as real numbers; the claims are stated up to the
"floating tolerance" the spec allows.
-/

/-- A 2-D point, as the source's coordinate pairs. -/
abbrev Point : Type := ℝ × ℝ

/-- Euclidean distance between two points (source: `distance`, main.py
lines 100-101: `sqrt((p2[0]-p1[0])**2 + (p2[1]-p1[1])**2)`). -/
noncomputable def distance (p1 p2 : Point) : ℝ :=
  Real.sqrt ((p2.1 - p1.1) ^ 2 + (p2.2 - p1.2) ^ 2)

/-- Cumulative-distance list built with accumulator `acc`: embeds the loop of
main.py lines 106-110, which starts from `[0.0]` and appends
`distances[-1] + distance(waypoints[i], waypoints[i+1])` for each segment.
`cumdistAux acc l` is that list when the running prefix sum at the head of `l`
is `acc`; for a list with fewer than two points it is `[acc]`, matching the
source's `[0.0]` when the loop body never runs. -/
noncomputable def cumdistAux (acc : ℝ) : List Point → List ℝ
  | p :: q :: rest => acc :: cumdistAux (acc + distance p q) (q :: rest)
  | _ => [acc]

/-- The source's `distances` list for a waypoint list (main.py lines 106-110). -/
noncomputable def distances (waypoints : List Point) : List ℝ :=
  cumdistAux 0 waypoints

/-- `total_distance = distances[-1]` (main.py line 112). -/
noncomputable def total_distance (waypoints : List Point) : ℝ :=
  (distances waypoints).getLastD 0

/-- The segment-search loop of main.py lines 116-128: walk the waypoint list
and the cumulative-distance list in lockstep; at the first index with
`distances[i] <= target_distance <= distances[i+1]` return the linear
interpolation on that segment, with `segment_progress = 0` when the segment
has zero length (the `if distances[i+1] != distances[i]` guard of lines
121-122); `none` when no segment matches. -/
noncomputable def segmentSearch (target : ℝ) : List Point → List ℝ → Option Point
  | p1 :: p2 :: ps, d1 :: d2 :: ds =>
      if d1 ≤ target ∧ target ≤ d2 then
        let segment_progress := if d2 ≠ d1 then (target - d1) / (d2 - d1) else 0
        some (p1.1 + segment_progress * (p2.1 - p1.1),
              p1.2 + segment_progress * (p2.2 - p1.2))
      else segmentSearch target (p2 :: ps) (d2 :: ds)
  | _, _ => none

/-- `interpolate_path` (main.py lines 103-130): compute
`target_distance = progress * total_distance`, search for the containing
segment, and fall back to `waypoints[-1]` (line 130) when no segment matches.
The fallback is modelled with `getLastD` and default `(0, 0)`; the default is
reached only on the empty waypoint list, where the source would raise an
`IndexError` instead. -/
noncomputable def interpolate_path (waypoints : List Point) (progress : ℝ) : Point :=
  let target_distance := progress * total_distance waypoints
  match segmentSearch target_distance waypoints (distances waypoints) with
  | some p => p
  | none => waypoints.getLastD (0, 0)

/-- Tick-to-progress map `(message_counter % P) / P` (main.py line 139, with
the source's position-cycle constant `P = 200` as a parameter, following the
spec's generalization). -/
noncomputable def progressOf (P : ℕ) (counter : ℕ) : ℝ :=
  ((counter % P : ℕ) : ℝ) / (P : ℝ)

/-- Angle map `amplitude * sin(2 * pi * counter / A)` (main.py line 144, with
the source's amplitude `15` and angle period `A = 40` as parameters, following
the spec's generalization). -/
noncomputable def angleOf (amplitude A : ℝ) (counter : ℕ) : ℝ :=
  amplitude * Real.sin (2 * Real.pi * (counter : ℝ) / A)

/-- The hardcoded waypoint list of main.py lines 87-97. -/
noncomputable def robotWaypoints : List Point :=
  [(388, 388), (388, 6500), (1100, 6500), (1100, 1400), (1900, 1400),
   (1900, 6500), (2500, 6500), (2500, 388), (388, 388)]

/-- The sample the send loop computes when `message_counter = counter`
(main.py lines 139-144): the interpolated position for progress
`(counter % 200) / 200` and the angle `15 * sin(2 * pi * counter / 40)`. -/
noncomputable def sampleAt (counter : ℕ) : Point × ℝ :=
  (interpolate_path robotWaypoints (progressOf 200 counter), angleOf 15 40 counter)

/-- One iteration of the send-loop body (main.py lines 134-144): the counter
is incremented first (`message_counter += 1`, line 135), then the sample is
computed from the new counter value. -/
noncomputable def loopIteration (counter : ℕ) : ℕ × (Point × ℝ) :=
  let c := counter + 1
  (c, sampleAt c)

/-- Linear interpolation between two points, the point the branch at main.py
lines 124-128 returns for a given segment fraction. Used to state where on a
segment `interpolate_path` lands. -/
noncomputable def lerpPoint (p q : Point) (sp : ℝ) : Point :=
  (p.1 + sp * (q.1 - p.1), p.2 + sp * (q.2 - p.2))

/-! ### Basic facts about distances and the cumulative-distance list -/

theorem distance_nonneg (p q : Point) : 0 ≤ distance p q :=
  Real.sqrt_nonneg _

theorem distance_self (p : Point) : distance p p = 0 := by
  simp [distance]

theorem eq_of_distance_eq_zero {p q : Point} (h : distance p q = 0) : p = q := by
  unfold distance at h
  rw [Real.sqrt_eq_zero (by positivity)] at h
  have h1 : (q.1 - p.1) ^ 2 = 0 ∧ (q.2 - p.2) ^ 2 = 0 := by
    constructor <;> nlinarith [sq_nonneg (q.1 - p.1), sq_nonneg (q.2 - p.2)]
  have e1 : q.1 = p.1 := by nlinarith [h1.1]
  have e2 : q.2 = p.2 := by nlinarith [h1.2]
  exact Prod.ext e1.symm e2.symm

theorem cumdistAux_getD_zero (a : ℝ) (l : List Point) :
    (cumdistAux a l).getD 0 0 = a := by
  match l with
  | [] => rfl
  | [p] => rfl
  | p :: q :: rest => rfl

theorem cumdistAux_length (a : ℝ) (l : List Point) :
    (cumdistAux a l).length = max 1 l.length := by
  induction l generalizing a with
  | nil => rfl
  | cons p rest ih =>
    match rest with
    | [] => rfl
    | q :: rest' =>
      simp only [cumdistAux, List.length_cons]
      rw [ih]
      simp only [List.length_cons]
      omega

theorem cumdistAux_le_of_mem {a x : ℝ} {l : List Point}
    (h : x ∈ cumdistAux a l) : a ≤ x := by
  induction l generalizing a with
  | nil => simp [cumdistAux] at h; simp [h]
  | cons p rest ih =>
    match rest with
    | [] => simp [cumdistAux] at h; simp [h]
    | q :: rest' =>
      simp only [cumdistAux, List.mem_cons] at h
      rcases h with h | h
      · simp [h]
      · have := ih h
        have hd := distance_nonneg p q
        linarith

theorem getLastD_eq_getD {α : Type} (l : List α) (d : α) :
    l.getLastD d = l.getD (l.length - 1) d := by
  rw [List.getLastD_eq_getLast?, List.getLast?_eq_getElem?, List.getD_eq_getElem?_getD]

theorem cumdistAux_getD_succ (a : ℝ) (l : List Point) (i : ℕ)
    (h : i + 1 < l.length) :
    (cumdistAux a l).getD (i + 1) 0 =
      (cumdistAux a l).getD i 0 +
        distance (l.getD i (0, 0)) (l.getD (i + 1) (0, 0)) := by
  induction i generalizing a l with
  | zero =>
    match l, h with
    | p :: q :: rest, _ =>
      have e : cumdistAux a (p :: q :: rest) =
          a :: cumdistAux (a + distance p q) (q :: rest) := rfl
      rw [e, List.getD_cons_succ, List.getD_cons_zero, cumdistAux_getD_zero]
      simp [List.getD_cons_zero, List.getD_cons_succ]
  | succ i ih =>
    match l, h with
    | p :: q :: rest, h =>
      have h' : i + 1 < (q :: rest).length := by
        simp only [List.length_cons] at h ⊢
        omega
      simp only [cumdistAux, List.getD_cons_succ]
      exact ih _ _ h'

theorem cumdistAux_mono (a : ℝ) (l : List Point) (i j : ℕ)
    (hij : i ≤ j) (hj : j < (cumdistAux a l).length) :
    (cumdistAux a l).getD i 0 ≤ (cumdistAux a l).getD j 0 := by
  induction l generalizing a i j with
  | nil =>
    simp only [cumdistAux, List.length_cons, List.length_nil] at hj
    have hj0 : j = 0 := by omega
    have hi0 : i = 0 := by omega
    subst hj0; subst hi0
    exact le_refl _
  | cons p rest ih =>
    match rest with
    | [] =>
      simp only [cumdistAux, List.length_cons, List.length_nil] at hj
      have hj0 : j = 0 := by omega
      have hi0 : i = 0 := by omega
      subst hj0; subst hi0
      exact le_refl _
    | q :: rest' =>
      match j, hij with
      | 0, hij =>
        have hi0 : i = 0 := by omega
        subst hi0
        exact le_refl _
      | j + 1, hij =>
        have hjlen : j < (cumdistAux (a + distance p q) (q :: rest')).length := by
          simp only [cumdistAux, List.length_cons] at hj
          omega
        match i with
        | 0 =>
          have hmem : (cumdistAux (a + distance p q) (q :: rest')).getD j 0 ∈
              cumdistAux (a + distance p q) (q :: rest') := by
            rw [List.getD_eq_getElem _ _ hjlen]
            exact List.getElem_mem hjlen
          have hle := cumdistAux_le_of_mem hmem
          have hd := distance_nonneg p q
          simp only [cumdistAux, List.getD_cons_zero, List.getD_cons_succ]
          linarith
        | i + 1 =>
          simp only [cumdistAux, List.getD_cons_succ]
          exact ih (a + distance p q) i j (by omega) hjlen

theorem cumdistAux_points_eq (a : ℝ) (l : List Point) (i m : ℕ)
    (h : i + m < l.length)
    (heq : (cumdistAux a l).getD i 0 = (cumdistAux a l).getD (i + m) 0) :
    l.getD i (0, 0) = l.getD (i + m) (0, 0) := by
  induction m with
  | zero => rfl
  | succ m ih =>
    have hlen : (cumdistAux a l).length = l.length := by
      rw [cumdistAux_length]
      omega
    have h1 : i + m < l.length := by omega
    have hmono1 : (cumdistAux a l).getD i 0 ≤ (cumdistAux a l).getD (i + m) 0 :=
      cumdistAux_mono a l i (i + m) (by omega) (by omega)
    have hmono2 : (cumdistAux a l).getD (i + m) 0 ≤ (cumdistAux a l).getD (i + m + 1) 0 :=
      cumdistAux_mono a l (i + m) (i + m + 1) (by omega) (by omega)
    have heqm : (cumdistAux a l).getD i 0 = (cumdistAux a l).getD (i + m) 0 := by
      have := heq
      rw [show i + (m + 1) = i + m + 1 from rfl] at this
      linarith
    have hstep := cumdistAux_getD_succ a l (i + m) (by omega)
    have hdist : distance (l.getD (i + m) (0, 0)) (l.getD (i + m + 1) (0, 0)) = 0 := by
      rw [show i + (m + 1) = i + m + 1 from rfl] at heq
      linarith
    have hpts := eq_of_distance_eq_zero hdist
    rw [show i + (m + 1) = i + m + 1 from rfl]
    rw [← hpts]
    exact ih h1 heqm

/-! ### Characterizing the segment search -/

theorem segmentSearch_cumdist_cons (t a : ℝ) (p q : Point) (rest : List Point) :
    segmentSearch t (p :: q :: rest) (cumdistAux a (p :: q :: rest)) =
      if a ≤ t ∧ t ≤ a + distance p q then
        some (lerpPoint p q
          (if a + distance p q ≠ a then (t - a) / (a + distance p q - a) else 0))
      else segmentSearch t (q :: rest) (cumdistAux (a + distance p q) (q :: rest)) := by
  match rest with
  | [] => rfl
  | r :: rs => rfl

theorem segmentSearch_some_convex (t : ℝ) (l : List Point) (ds : List ℝ) (pt : Point)
    (h : segmentSearch t l ds = some pt) :
    ∃ i sp, i + 1 < l.length ∧ 0 ≤ sp ∧ sp ≤ 1 ∧
      pt = lerpPoint (l.getD i (0, 0)) (l.getD (i + 1) (0, 0)) sp := by
  induction l generalizing ds with
  | nil => simp [segmentSearch] at h
  | cons p rest ih =>
    match rest, ds with
    | [], [] => simp [segmentSearch] at h
    | [], d1 :: ds' => simp [segmentSearch] at h
    | q :: rest', [] => simp [segmentSearch] at h
    | q :: rest', [d1] => simp [segmentSearch] at h
    | q :: rest', d1 :: d2 :: ds' =>
      rw [segmentSearch] at h
      by_cases hc : d1 ≤ t ∧ t ≤ d2
      · rw [if_pos hc] at h
        refine ⟨0, if d2 ≠ d1 then (t - d1) / (d2 - d1) else 0, by simp, ?_, ?_, ?_⟩
        · by_cases hne : d2 ≠ d1
          · rw [if_pos hne]
            have hlt : d1 < d2 := lt_of_le_of_ne (le_trans hc.1 hc.2) (Ne.symm hne)
            exact div_nonneg (by linarith [hc.1]) (by linarith)
          · rw [if_neg hne]
        · by_cases hne : d2 ≠ d1
          · rw [if_pos hne]
            have hlt : d1 < d2 := lt_of_le_of_ne (le_trans hc.1 hc.2) (Ne.symm hne)
            rw [div_le_one (by linarith)]
            linarith [hc.2]
          · rw [if_neg hne]
            norm_num
        · simp only [Option.some.injEq] at h
          simp only [List.getD_cons_zero, List.getD_cons_succ, lerpPoint]
          exact h.symm
      · rw [if_neg hc] at h
        obtain ⟨i, sp, hi, h0, h1, hpt⟩ := ih (d2 :: ds') h
        refine ⟨i + 1, sp, ?_, h0, h1, ?_⟩
        · simp only [List.length_cons] at hi ⊢
          omega
        · simpa [List.getD_cons_succ] using hpt

theorem lerpPoint_zero (p q : Point) : lerpPoint p q 0 = p := by
  simp [lerpPoint]

theorem lerpPoint_one (p q : Point) : lerpPoint p q 1 = q := by
  apply Prod.ext <;> simp [lerpPoint]

theorem segmentSearch_of_mem_segment (l : List Point) (a t : ℝ) (i : ℕ)
    (hi : i + 1 < l.length)
    (h1 : (cumdistAux a l).getD i 0 ≤ t)
    (h2 : t ≤ (cumdistAux a l).getD (i + 1) 0) :
    segmentSearch t l (cumdistAux a l) =
      some (lerpPoint (l.getD i (0, 0)) (l.getD (i + 1) (0, 0))
        (if (cumdistAux a l).getD (i + 1) 0 ≠ (cumdistAux a l).getD i 0
         then (t - (cumdistAux a l).getD i 0) /
              ((cumdistAux a l).getD (i + 1) 0 - (cumdistAux a l).getD i 0)
         else 0)) := by
  induction i generalizing l a with
  | zero =>
    match l, hi with
    | p :: q :: rest, _ =>
      have hd0 : (cumdistAux a (p :: q :: rest)).getD 0 0 = a := cumdistAux_getD_zero a _
      have hd1 : (cumdistAux a (p :: q :: rest)).getD 1 0 = a + distance p q := by
        have e : cumdistAux a (p :: q :: rest) =
            a :: cumdistAux (a + distance p q) (q :: rest) := rfl
        rw [e, List.getD_cons_succ, cumdistAux_getD_zero]
      rw [hd0] at h1
      rw [hd1] at h2
      rw [segmentSearch_cumdist_cons, if_pos ⟨h1, h2⟩, hd0, hd1]
      simp only [List.getD_cons_zero, List.getD_cons_succ]
  | succ i ih =>
    match l, hi with
    | p :: q :: rest, hi =>
      have e : cumdistAux a (p :: q :: rest) =
          a :: cumdistAux (a + distance p q) (q :: rest) := rfl
      have hlen' : (cumdistAux (a + distance p q) (q :: rest)).length =
          (q :: rest).length := by
        rw [cumdistAux_length]
        simp only [List.length_cons]
        omega
      have hi' : i + 1 < (q :: rest).length := by
        simp only [List.length_cons] at hi ⊢
        omega
      have h1' : (cumdistAux (a + distance p q) (q :: rest)).getD i 0 ≤ t := by
        rw [e, List.getD_cons_succ] at h1
        exact h1
      have h2' : t ≤ (cumdistAux (a + distance p q) (q :: rest)).getD (i + 1) 0 := by
        rw [e, List.getD_cons_succ] at h2
        exact h2
      rw [segmentSearch_cumdist_cons, e]
      simp only [List.getD_cons_succ]
      by_cases hc : a ≤ t ∧ t ≤ a + distance p q
      · -- the head segment already matches, so the target sits exactly on the
        -- cumulative distance of waypoint i+1 and all waypoints between index
        -- 1 and index i+1 coincide: the head branch returns the same point
        rw [if_pos hc]
        have hmono : a + distance p q ≤
            (cumdistAux (a + distance p q) (q :: rest)).getD i 0 := by
          have hm := cumdistAux_mono (a + distance p q) (q :: rest) 0 i (by omega)
            (by rw [hlen']; simp only [List.length_cons] at hi' ⊢; omega)
          rw [cumdistAux_getD_zero] at hm
          exact hm
        have heq1 : t = a + distance p q := le_antisymm hc.2 (le_trans hmono h1')
        have heqi : (cumdistAux (a + distance p q) (q :: rest)).getD i 0 = t :=
          le_antisymm h1' (by rw [heq1]; exact hmono)
        have hq : (q :: rest).getD 0 (0, 0) = (q :: rest).getD (0 + i) (0, 0) := by
          apply cumdistAux_points_eq (a + distance p q) (q :: rest) 0 i
          · simp only [List.length_cons] at hi' ⊢
            omega
          · rw [cumdistAux_getD_zero, show 0 + i = i from by omega, heqi, heq1]
        rw [show (0 : ℕ) + i = i from by omega, List.getD_cons_zero] at hq
        have hspR : (if (cumdistAux (a + distance p q) (q :: rest)).getD (i + 1) 0 ≠
              (cumdistAux (a + distance p q) (q :: rest)).getD i 0
            then (t - (cumdistAux (a + distance p q) (q :: rest)).getD i 0) /
              ((cumdistAux (a + distance p q) (q :: rest)).getD (i + 1) 0 -
                (cumdistAux (a + distance p q) (q :: rest)).getD i 0)
            else 0) = 0 := by
          rw [heqi]
          split
          · rw [sub_self, zero_div]
          · rfl
        rw [hspR, lerpPoint_zero, ← hq]
        by_cases hdz : a + distance p q ≠ a
        · have hdne : distance p q ≠ 0 := fun h => hdz (by rw [h, add_zero])
          have hsp1 : (t - a) / (a + distance p q - a) = 1 := by
            rw [heq1, add_sub_cancel_left]
            exact div_self hdne
          rw [if_pos hdz, hsp1, lerpPoint_one]
        · have hdeq : distance p q = 0 := by
            push_neg at hdz
            linarith [hdz]
          rw [if_neg hdz, lerpPoint_zero]
          rw [eq_of_distance_eq_zero hdeq]
      · rw [if_neg hc]
        have := ih (q :: rest) (a + distance p q) hi' h1' h2'
        exact this

/-! ### Facts restated over `distances` (the source's cumulative list) -/

theorem distances_getD_zero (w : List Point) : (distances w).getD 0 0 = 0 :=
  cumdistAux_getD_zero 0 w

theorem distances_length (w : List Point) : (distances w).length = max 1 w.length :=
  cumdistAux_length 0 w

theorem distances_getD_succ (w : List Point) (i : ℕ) (h : i + 1 < w.length) :
    (distances w).getD (i + 1) 0 =
      (distances w).getD i 0 + distance (w.getD i (0, 0)) (w.getD (i + 1) (0, 0)) :=
  cumdistAux_getD_succ 0 w i h

theorem distances_mono (w : List Point) (i j : ℕ) (hij : i ≤ j)
    (hj : j < (distances w).length) :
    (distances w).getD i 0 ≤ (distances w).getD j 0 :=
  cumdistAux_mono 0 w i j hij hj

theorem distances_points_eq (w : List Point) (i m : ℕ) (h : i + m < w.length)
    (heq : (distances w).getD i 0 = (distances w).getD (i + m) 0) :
    w.getD i (0, 0) = w.getD (i + m) (0, 0) :=
  cumdistAux_points_eq 0 w i m h heq

/-- Where `interpolate_path` lands when the target distance falls inside
segment `i`: the segment's linear interpolation at the source's
`segment_progress`, including the zero-length-segment guard. -/
theorem interpolate_path_of_mem_segment (w : List Point) (progress : ℝ) (i : ℕ)
    (hi : i + 1 < w.length)
    (h1 : (distances w).getD i 0 ≤ progress * total_distance w)
    (h2 : progress * total_distance w ≤ (distances w).getD (i + 1) 0) :
    interpolate_path w progress =
      lerpPoint (w.getD i (0, 0)) (w.getD (i + 1) (0, 0))
        (if (distances w).getD (i + 1) 0 ≠ (distances w).getD i 0
         then (progress * total_distance w - (distances w).getD i 0) /
              ((distances w).getD (i + 1) 0 - (distances w).getD i 0)
         else 0) := by
  have hs := segmentSearch_of_mem_segment w 0 (progress * total_distance w) i hi h1 h2
  simp only [interpolate_path, distances] at *
  rw [hs]

/-- `interpolate(0)` is the first waypoint whenever there are at least two
waypoints. -/
theorem interpolate_path_zero (w : List Point) (hw : 2 ≤ w.length) :
    interpolate_path w 0 = w.getD 0 (0, 0) := by
  have h01 : (distances w).getD 0 0 = 0 := distances_getD_zero w
  have hnn : 0 ≤ (distances w).getD (0 + 1) 0 := by
    have hm := distances_mono w 0 1 (by omega) (by rw [distances_length]; omega)
    rw [h01] at hm
    simpa using hm
  have hch := interpolate_path_of_mem_segment w 0 0 (by omega)
    (by rw [h01, zero_mul]) (by rw [zero_mul]; exact hnn)
  rw [hch]
  have hsp : (if (distances w).getD (0 + 1) 0 ≠ (distances w).getD 0 0
      then (0 * total_distance w - (distances w).getD 0 0) /
        ((distances w).getD (0 + 1) 0 - (distances w).getD 0 0)
      else 0) = 0 := by
    rw [h01, zero_mul, sub_zero]
    split
    · rw [zero_div]
    · rfl
  rw [hsp, lerpPoint_zero]

/-- `interpolate(1)` is the last waypoint whenever there are at least two
waypoints. -/
theorem interpolate_path_one (w : List Point) (hw : 2 ≤ w.length) :
    interpolate_path w 1 = w.getLastD (0, 0) := by
  have hlen : (distances w).length = w.length := by
    rw [distances_length]
    omega
  have htot : total_distance w = (distances w).getD (w.length - 1) 0 := by
    unfold total_distance
    rw [getLastD_eq_getD, hlen]
  have hidx : w.length - 2 + 1 = w.length - 1 := by omega
  have h1 : (distances w).getD (w.length - 2) 0 ≤ 1 * total_distance w := by
    rw [one_mul, htot]
    exact distances_mono w (w.length - 2) (w.length - 1) (by omega) (by rw [hlen]; omega)
  have h2 : 1 * total_distance w ≤ (distances w).getD (w.length - 2 + 1) 0 := by
    rw [one_mul, htot, hidx]
  have hch := interpolate_path_of_mem_segment w 1 (w.length - 2) (by omega) h1 h2
  rw [hch, getLastD_eq_getD]
  by_cases hne : (distances w).getD (w.length - 2 + 1) 0 ≠ (distances w).getD (w.length - 2) 0
  · rw [if_pos hne]
    have hsp : (1 * total_distance w - (distances w).getD (w.length - 2) 0) /
        ((distances w).getD (w.length - 2 + 1) 0 - (distances w).getD (w.length - 2) 0) = 1 := by
      rw [one_mul, htot, ← hidx]
      exact div_self (sub_ne_zero.mpr hne)
    rw [hsp, lerpPoint_one, hidx]
  · rw [if_neg hne, lerpPoint_zero]
    push_neg at hne
    have hpts := distances_points_eq w (w.length - 2) 1 (by omega) hne.symm
    rw [hpts, hidx]

/-! ### Distances of axis-aligned segments, and degenerate paths -/

theorem distance_horiz (a b c : ℝ) : distance (a, c) (b, c) = |b - a| := by
  unfold distance
  simp only [sub_self, ne_eq, OfNat.ofNat_ne_zero, not_false_eq_true, zero_pow, add_zero]
  exact Real.sqrt_sq_eq_abs _

theorem distance_vert (a b c : ℝ) : distance (a, b) (a, c) = |c - b| := by
  unfold distance
  simp only [sub_self, ne_eq, OfNat.ofNat_ne_zero, not_false_eq_true, zero_pow, zero_add]
  exact Real.sqrt_sq_eq_abs _

theorem cumdistAux_all_eq (c : Point) :
    ∀ (l : List Point) (a : ℝ), (∀ x ∈ l, x = c) → ∀ x ∈ cumdistAux a l, x = a := by
  intro l
  induction l with
  | nil =>
    intro a _ x hx
    simp only [cumdistAux, List.mem_singleton] at hx
    exact hx
  | cons p rest ih =>
    intro a hall x hx
    match rest with
    | [] =>
      simp only [cumdistAux, List.mem_singleton] at hx
      exact hx
    | q :: rest' =>
      simp only [cumdistAux, List.mem_cons] at hx
      rcases hx with hx | hx
      · exact hx
      · have hp : p = c := hall p (by simp)
        have hq : q = c := hall q (by simp)
        have hd : distance p q = 0 := by
          rw [hp, hq]
          exact distance_self c
        have hmem : x ∈ cumdistAux (a + distance p q) (q :: rest') := by
          simpa [cumdistAux] using hx
        have := ih (a + distance p q) (fun y hy => hall y (List.mem_cons_of_mem _ hy)) x hmem
        rw [hd, add_zero] at this
        exact this

theorem distance_lerpPoint_right (p q : Point) (sp : ℝ) :
    distance (lerpPoint p q sp) q = |1 - sp| * distance p q := by
  unfold distance lerpPoint
  rw [← Real.sqrt_sq_eq_abs, ← Real.sqrt_mul (sq_nonneg _)]
  congr 1
  ring

/-! ### The claims -/

/-- Claim C2: for every waypoint list with at least 2 points and every
progress value in [0,1], the interpolated point is a convex combination of
two consecutive waypoints of the polyline — `interpolate_path` never
extrapolates beyond the first or last waypoint. -/
theorem claim_C2 (w : List Point) (progress : ℝ) (hw : 2 ≤ w.length)
    (h0 : 0 ≤ progress) (h1 : progress ≤ 1) :
    ∃ i sp, i + 1 < w.length ∧ 0 ≤ sp ∧ sp ≤ 1 ∧
      interpolate_path w progress =
        lerpPoint (w.getD i (0, 0)) (w.getD (i + 1) (0, 0)) sp := by
  cases hss : segmentSearch (progress * total_distance w) w (distances w) with
  | some pt =>
    obtain ⟨i, sp, hi, hsp0, hsp1, hpt⟩ :=
      segmentSearch_some_convex (progress * total_distance w) w (distances w) pt hss
    refine ⟨i, sp, hi, hsp0, hsp1, ?_⟩
    simp only [interpolate_path, hss]
    exact hpt
  | none =>
    refine ⟨w.length - 2, 1, by omega, by norm_num, le_refl 1, ?_⟩
    simp only [interpolate_path, hss]
    rw [lerpPoint_one, getLastD_eq_getD, show w.length - 2 + 1 = w.length - 1 from by omega]

/-- Witness for C2: the two-point path [(0,0),(10,0)] at progress 1/2. -/
theorem claim_C2_witness :
    ∃ i sp, i + 1 < ([((0 : ℝ), (0 : ℝ)), (10, 0)] : List Point).length ∧
      0 ≤ sp ∧ sp ≤ 1 ∧
      interpolate_path [((0 : ℝ), (0 : ℝ)), (10, 0)] (1 / 2) =
        lerpPoint (([((0 : ℝ), (0 : ℝ)), (10, 0)] : List Point).getD i (0, 0))
          (([((0 : ℝ), (0 : ℝ)), (10, 0)] : List Point).getD (i + 1) (0, 0)) sp :=
  claim_C2 [((0 : ℝ), (0 : ℝ)), (10, 0)] (1 / 2) (by norm_num) (by norm_num) (by norm_num)

/-- Claim C3: for every waypoint list with at least 2 points,
`interpolate(0)` is the first waypoint and `interpolate(1)` is the last
waypoint. -/
theorem claim_C3 (w : List Point) (hw : 2 ≤ w.length) :
    interpolate_path w 0 = w.getD 0 (0, 0) ∧
      interpolate_path w 1 = w.getLastD (0, 0) :=
  ⟨interpolate_path_zero w hw, interpolate_path_one w hw⟩

/-- Witness for C3 on the concrete two-point path [(0,0),(10,0)]. -/
theorem claim_C3_witness :
    interpolate_path [((0 : ℝ), (0 : ℝ)), (10, 0)] 0 = (0, 0) ∧
      interpolate_path [((0 : ℝ), (0 : ℝ)), (10, 0)] 1 = (10, 0) := by
  have h := claim_C3 [((0 : ℝ), (0 : ℝ)), (10, 0)] (by norm_num)
  simpa using h

/-- Claim C4: when the target distances of two progress values p1 < p2 both
fall within the same positive-length segment, the point interpolated for p2
is strictly closer to the segment's end waypoint than the point for p1. -/
theorem claim_C4 (w : List Point) (i : ℕ) (p1 p2 : ℝ)
    (hi : i + 1 < w.length) (hlt : p1 < p2)
    (h1 : (distances w).getD i 0 ≤ p1 * total_distance w)
    (h2 : p2 * total_distance w ≤ (distances w).getD (i + 1) 0)
    (hpos : (distances w).getD i 0 < (distances w).getD (i + 1) 0) :
    distance (interpolate_path w p2) (w.getD (i + 1) (0, 0)) <
      distance (interpolate_path w p1) (w.getD (i + 1) (0, 0)) := by
  have hlen : (distances w).length = w.length := by
    rw [distances_length]
    omega
  have htot : total_distance w = (distances w).getD (w.length - 1) 0 := by
    unfold total_distance
    rw [getLastD_eq_getD, hlen]
  have hcj_le : (distances w).getD (i + 1) 0 ≤ total_distance w := by
    rw [htot]
    exact distances_mono w (i + 1) (w.length - 1) (by omega) (by omega)
  have hci_nonneg : 0 ≤ (distances w).getD i 0 := by
    have hm := distances_mono w 0 i (by omega) (by omega)
    rw [distances_getD_zero] at hm
    exact hm
  have htpos : 0 < total_distance w :=
    lt_of_lt_of_le (lt_of_le_of_lt hci_nonneg hpos) hcj_le
  have ht12 : p1 * total_distance w < p2 * total_distance w :=
    mul_lt_mul_of_pos_right hlt htpos
  have h1' : (distances w).getD i 0 ≤ p2 * total_distance w :=
    le_trans h1 (le_of_lt ht12)
  have h2' : p1 * total_distance w ≤ (distances w).getD (i + 1) 0 :=
    le_trans (le_of_lt ht12) h2
  have hne : (distances w).getD (i + 1) 0 ≠ (distances w).getD i 0 := ne_of_gt hpos
  have hch1 := interpolate_path_of_mem_segment w p1 i hi h1 h2'
  have hch2 := interpolate_path_of_mem_segment w p2 i hi h1' h2
  rw [if_pos hne] at hch1 hch2
  rw [hch1, hch2, distance_lerpPoint_right, distance_lerpPoint_right]
  have hseg : distance (w.getD i (0, 0)) (w.getD (i + 1) (0, 0)) =
      (distances w).getD (i + 1) 0 - (distances w).getD i 0 := by
    have hs := distances_getD_succ w i hi
    linarith
  rw [hseg]
  have hL : 0 < (distances w).getD (i + 1) 0 - (distances w).getD i 0 := by linarith
  have hsp2_le : (p2 * total_distance w - (distances w).getD i 0) /
      ((distances w).getD (i + 1) 0 - (distances w).getD i 0) ≤ 1 := by
    rw [div_le_one hL]
    linarith
  have hsp1_lt : (p1 * total_distance w - (distances w).getD i 0) /
        ((distances w).getD (i + 1) 0 - (distances w).getD i 0) <
      (p2 * total_distance w - (distances w).getD i 0) /
        ((distances w).getD (i + 1) 0 - (distances w).getD i 0) := by
    have hmul := mul_lt_mul_of_pos_right
      (show p1 * total_distance w - (distances w).getD i 0 <
          p2 * total_distance w - (distances w).getD i 0 by linarith)
      (inv_pos.mpr hL)
    simpa [div_eq_mul_inv] using hmul
  have hsp1_le : (p1 * total_distance w - (distances w).getD i 0) /
      ((distances w).getD (i + 1) 0 - (distances w).getD i 0) ≤ 1 :=
    le_of_lt (lt_of_lt_of_le hsp1_lt hsp2_le)
  rw [abs_of_nonneg (by linarith), abs_of_nonneg (by linarith)]
  apply mul_lt_mul_of_pos_right _ hL
  linarith

theorem distances_pair : distances [((0 : ℝ), (0 : ℝ)), (10, 0)] = [0, 10] := by
  simp only [distances, cumdistAux, distance_horiz]
  norm_num

theorem total_distance_pair : total_distance [((0 : ℝ), (0 : ℝ)), (10, 0)] = 10 := by
  unfold total_distance
  rw [distances_pair]
  rfl

/-- Witness for C4: on [(0,0),(10,0)], progress 1/2 lands strictly closer to
(10,0) than progress 3/10 does. -/
theorem claim_C4_witness :
    distance (interpolate_path [((0 : ℝ), (0 : ℝ)), (10, 0)] (1 / 2)) (10, 0) <
      distance (interpolate_path [((0 : ℝ), (0 : ℝ)), (10, 0)] (3 / 10)) (10, 0) := by
  have h := claim_C4 [((0 : ℝ), (0 : ℝ)), (10, 0)] 0 (3 / 10) (1 / 2)
    (by norm_num) (by norm_num)
    (by rw [distances_pair, total_distance_pair]; norm_num)
    (by rw [distances_pair, total_distance_pair]; norm_num)
    (by rw [distances_pair]; norm_num)
  simpa using h

/-- Claim C5: tick-to-progress is the sawtooth `(tick % P) / P`, periodic with
period P; hence the emitted position repeats with period P, and at every wrap
(tick a multiple of P) the progress is 0 and the position restarts from the
first waypoint. -/
theorem claim_C5 (P : ℕ) (w : List Point) (tick : ℕ) (hw : 2 ≤ w.length) :
    progressOf P (tick + P) = progressOf P tick ∧
      interpolate_path w (progressOf P (tick + P)) =
        interpolate_path w (progressOf P tick) ∧
      ∀ k : ℕ, progressOf P (k * P) = 0 ∧
        interpolate_path w (progressOf P (k * P)) = w.getD 0 (0, 0) := by
  have hper : progressOf P (tick + P) = progressOf P tick := by
    unfold progressOf
    rw [Nat.add_mod_right]
  refine ⟨hper, by rw [hper], ?_⟩
  intro k
  have h0 : progressOf P (k * P) = 0 := by
    unfold progressOf
    rw [Nat.mul_mod_left]
    simp
  exact ⟨h0, by rw [h0, interpolate_path_zero w hw]⟩

/-- Witness for C5 at P = 4, tick 1, wrap counter 2*4, on [(0,0),(10,0)]. -/
theorem claim_C5_witness :
    progressOf 4 (1 + 4) = progressOf 4 1 ∧
      progressOf 4 (2 * 4) = 0 ∧
      interpolate_path [((0 : ℝ), (0 : ℝ)), (10, 0)] (progressOf 4 (2 * 4)) = (0, 0) := by
  obtain ⟨hp, _, hk⟩ := claim_C5 4 [((0 : ℝ), (0 : ℝ)), (10, 0)] 1 (by norm_num)
  refine ⟨hp, (hk 2).1, ?_⟩
  rw [(hk 2).2]
  simp

/-- Claim C6: the angle is `amplitude * sin(2*pi*tick/A)`; for every tick its
absolute value is at most the amplitude, and it is exactly 0 at tick 0. -/
theorem claim_C6 (amplitude A : ℝ) (hamp : 0 ≤ amplitude) :
    (∀ tick : ℕ, |angleOf amplitude A tick| ≤ amplitude) ∧
      angleOf amplitude A 0 = 0 := by
  constructor
  · intro tick
    unfold angleOf
    rw [abs_mul, abs_of_nonneg hamp]
    calc amplitude * |Real.sin (2 * Real.pi * (tick : ℝ) / A)|
        ≤ amplitude * 1 := mul_le_mul_of_nonneg_left (Real.abs_sin_le_one _) hamp
      _ = amplitude := mul_one amplitude
  · unfold angleOf
    simp

/-- Witness for C6 at the source's amplitude 15 and angle period 40. -/
theorem claim_C6_witness : |angleOf 15 40 7| ≤ 15 ∧ angleOf 15 40 0 = 0 :=
  ⟨(claim_C6 15 40 (by norm_num)).1 7, (claim_C6 15 40 (by norm_num)).2⟩

/-- Claim C7: a degenerate path in which all waypoints coincide never raises
a division error: `interpolate_path` returns the common point for every
progress value (the zero-length-segment guard makes every segment fraction 0). -/
theorem claim_C7 (c : Point) (w : List Point) (hw : 2 ≤ w.length)
    (hall : ∀ x ∈ w, x = c) (progress : ℝ) :
    interpolate_path w progress = c := by
  have hlen : (distances w).length = w.length := by
    rw [distances_length]
    omega
  have htot : total_distance w = 0 := by
    have hmem : total_distance w ∈ distances w := by
      unfold total_distance
      rw [getLastD_eq_getD, List.getD_eq_getElem _ _ (by omega)]
      exact List.getElem_mem _
    exact cumdistAux_all_eq c w 0 hall _ hmem
  have he : interpolate_path w progress = interpolate_path w 0 := by
    simp only [interpolate_path, htot, mul_zero, zero_mul]
  rw [he, interpolate_path_zero w hw]
  have h0 : w.getD 0 (0, 0) ∈ w := by
    rw [List.getD_eq_getElem _ _ (by omega)]
    exact List.getElem_mem _
  exact hall _ h0

/-- Witness for C7: the degenerate path [(1,2),(1,2)] at progress 3. -/
theorem claim_C7_witness :
    interpolate_path [((1 : ℝ), (2 : ℝ)), (1, 2)] 3 = (1, 2) :=
  claim_C7 (1, 2) [((1 : ℝ), (2 : ℝ)), (1, 2)] (by norm_num) (by simp) 3

/-! ### Construction contract (spec section 4.1) -/

/-- Configuration surface of the telemetry generator as the spec's
construction contract lists it: waypoints, tick interval, position-cycle
length P, angle period A, amplitude. The source hardcodes a valid instance
(waypoints at main.py lines 87-97, interval 0.1 s at line 157, P = 200 at
line 139, A = 40 and amplitude 15 at line 144). -/
structure GeneratorConfig where
  waypoints : List Point
  tickInterval : ℚ
  positionCycleP : ℤ
  anglePeriodA : ℤ
  amplitude : ℝ

/-- The fatal construction-time error of the spec's error taxonomy. -/
inductive ConfigError
  | invalidConfiguration

/-- Modelled from the spec: the source script has no generator constructor —
it hardcodes a valid configuration — so the spec's construction contract
("Fails with InvalidConfiguration if waypoints has fewer than 2 points, or if
P or A is <= 0, or if tick interval is <= 0", section 4.1) has no counterpart
under src/. This definition follows the spec's words. -/
def validateConfig (cfg : GeneratorConfig) : Except ConfigError GeneratorConfig :=
  if cfg.waypoints.length < 2 ∨ cfg.positionCycleP ≤ 0 ∨ cfg.anglePeriodA ≤ 0 ∨
      cfg.tickInterval ≤ 0 then
    Except.error ConfigError.invalidConfiguration
  else
    Except.ok cfg

/-- Claim C8: construction fails eagerly with InvalidConfiguration exactly on
malformed configuration (fewer than 2 waypoints, P <= 0, A <= 0, or tick
interval <= 0), and a successfully constructed generator satisfies every
invariant — malformed configuration is never discovered mid-run. -/
theorem claim_C8 (cfg : GeneratorConfig) :
    (validateConfig cfg = Except.error ConfigError.invalidConfiguration ↔
      (cfg.waypoints.length < 2 ∨ cfg.positionCycleP ≤ 0 ∨ cfg.anglePeriodA ≤ 0 ∨
        cfg.tickInterval ≤ 0)) ∧
    ∀ cfg', validateConfig cfg = Except.ok cfg' →
      cfg' = cfg ∧ 2 ≤ cfg'.waypoints.length ∧ 0 < cfg'.positionCycleP ∧
        0 < cfg'.anglePeriodA ∧ 0 < cfg'.tickInterval := by
  unfold validateConfig
  by_cases h : cfg.waypoints.length < 2 ∨ cfg.positionCycleP ≤ 0 ∨
      cfg.anglePeriodA ≤ 0 ∨ cfg.tickInterval ≤ 0
  · rw [if_pos h]
    constructor
    · constructor
      · intro _
        exact h
      · intro _
        rfl
    · intro cfg' hc
      cases hc
  · rw [if_neg h]
    constructor
    · constructor
      · intro hc
        cases hc
      · intro hbad
        exact absurd hbad h
    push_neg at h
    intro cfg' hc
    injection hc with he
    subst he
    exact ⟨rfl, by omega, h.2.1, h.2.2.1, h.2.2.2⟩

/-! ### The RX write handler (main.py lines 50-55) -/

/-- Lower bound for the second byte of a 3-byte UTF-8 sequence: lead byte
0xE0 requires 0xA0..0xBF (rejecting overlong encodings). -/
def utf8SecondLo3 (b : ℕ) : ℕ := if b = 0xE0 then 0xA0 else 0x80

/-- Upper bound for the second byte of a 3-byte UTF-8 sequence: lead byte
0xED requires 0x80..0x9F (rejecting surrogates). -/
def utf8SecondHi3 (b : ℕ) : ℕ := if b = 0xED then 0x9F else 0xBF

/-- Lower bound for the second byte of a 4-byte UTF-8 sequence: lead byte
0xF0 requires 0x90..0xBF (rejecting overlong encodings). -/
def utf8SecondLo4 (b : ℕ) : ℕ := if b = 0xF0 then 0x90 else 0x80

/-- Upper bound for the second byte of a 4-byte UTF-8 sequence: lead byte
0xF4 requires 0x80..0x8F (staying below 0x110000). -/
def utf8SecondHi4 (b : ℕ) : ℕ := if b = 0xF4 then 0x8F else 0xBF

/-- Strict UTF-8 decoding of a byte list into a code-point list, `none` on
any malformed input: the model of Python's `value.decode("utf-8")` at main.py
line 52, whose UnicodeDecodeError is what the bare `except` catches. -/
def utf8Decode : List ℕ → Option (List ℕ)
  | [] => some []
  | b :: rest =>
    if b < 0x80 then
      (utf8Decode rest).map (fun cs => b :: cs)
    else if b < 0xC2 then
      none
    else if b < 0xE0 then
      match rest with
      | c1 :: rest2 =>
        if 0x80 ≤ c1 ∧ c1 ≤ 0xBF then
          (utf8Decode rest2).map (fun cs => ((b - 0xC0) * 0x40 + (c1 - 0x80)) :: cs)
        else none
      | [] => none
    else if b < 0xF0 then
      match rest with
      | c1 :: c2 :: rest2 =>
        if (utf8SecondLo3 b ≤ c1 ∧ c1 ≤ utf8SecondHi3 b) ∧ 0x80 ≤ c2 ∧ c2 ≤ 0xBF then
          (utf8Decode rest2).map
            (fun cs => ((b - 0xE0) * 0x1000 + (c1 - 0x80) * 0x40 + (c2 - 0x80)) :: cs)
        else none
      | _ => none
    else if b < 0xF5 then
      match rest with
      | c1 :: c2 :: c3 :: rest2 =>
        if (utf8SecondLo4 b ≤ c1 ∧ c1 ≤ utf8SecondHi4 b) ∧
            (0x80 ≤ c2 ∧ c2 ≤ 0xBF) ∧ 0x80 ≤ c3 ∧ c3 ≤ 0xBF then
          (utf8Decode rest2).map
            (fun cs => ((b - 0xF0) * 0x40000 + (c1 - 0x80) * 0x1000 +
              (c2 - 0x80) * 0x40 + (c3 - 0x80)) :: cs)
        else none
      | _ => none
    else none

/-- One lowercase hex digit. -/
def hexDigit (n : ℕ) : Char :=
  if n < 10 then Char.ofNat (48 + n) else Char.ofNat (87 + n)

/-- Lowercase hex dump of a byte list, as `value.hex()` at main.py line 55. -/
def bytesToHex : List ℕ → String
  | [] => ""
  | b :: rest => String.mk [hexDigit (b / 16 % 16), hexDigit (b % 16)] ++ bytesToHex rest

/-- A decoded code-point list rendered as a string. -/
def codepointsToString (cps : List ℕ) : String :=
  String.mk (cps.map Char.ofNat)

/-- The Python exception the RX write handler would have to propagate for the
generator to observe it. -/
inductive PyError
  | unicodeDecodeError

/-- `on_rx_write` (main.py lines 50-55): try to decode the written value as
UTF-8 and log it as text; on decode failure the bare `except` falls back to
logging the hex dump. `Except.error` would model an exception escaping the
handler. The handler closes over no generator state, so its result is the
logged line alone. -/
def on_rx_write (value : List ℕ) : Except PyError String :=
  match utf8Decode value with
  | some cps =>
      Except.ok ("=== [Received] Write from browser: " ++ codepointsToString cps)
  | none => Except.ok ("=== [Received] Binary data: " ++ bytesToHex value)

/-- Claim C9: the inbound write handler is total over payloads: every byte
list — including non-UTF-8 binary ones — produces a logged line without any
exception escaping, and non-text payloads fall back to the hex dump. -/
theorem claim_C9 (value : List ℕ) :
    (∃ s, on_rx_write value = Except.ok s) ∧
      (utf8Decode value = none →
        on_rx_write value =
          Except.ok ("=== [Received] Binary data: " ++ bytesToHex value)) := by
  unfold on_rx_write
  cases h : utf8Decode value with
  | some cps =>
    refine ⟨⟨_, rfl⟩, fun hn => ?_⟩
    cases hn
  | none => exact ⟨⟨_, rfl⟩, fun _ => rfl⟩

/-- Witness for C9: the single byte 0xFF is not UTF-8 and takes the hex-dump
branch. -/
theorem claim_C9_witness :
    on_rx_write [255] =
      Except.ok ("=== [Received] Binary data: " ++ bytesToHex [255]) :=
  (claim_C9 [255]).2 (by rfl)

/-! ### The spec's concrete scenario (claim C1) -/

theorem distances_c1 :
    distances [((0 : ℝ), (0 : ℝ)), (10, 0), (10, 10)] = [0, 10, 20] := by
  simp only [distances, cumdistAux, distance_horiz, distance_vert]
  norm_num

theorem total_distance_c1 :
    total_distance [((0 : ℝ), (0 : ℝ)), (10, 0), (10, 10)] = 20 := by
  unfold total_distance
  rw [distances_c1]
  rfl

theorem interpolate_c1_quarter :
    interpolate_path [((0 : ℝ), (0 : ℝ)), (10, 0), (10, 10)] (1 / 4) = (5, 0) := by
  have hch := interpolate_path_of_mem_segment
    [((0 : ℝ), (0 : ℝ)), (10, 0), (10, 10)] (1 / 4) 0 (by norm_num)
    (by rw [distances_c1, total_distance_c1]
        show (0 : ℝ) ≤ 1 / 4 * 20
        norm_num)
    (by rw [distances_c1, total_distance_c1]
        show (1 : ℝ) / 4 * 20 ≤ 10
        norm_num)
  rw [distances_c1, total_distance_c1] at hch
  rw [hch]
  rw [show (([0, 10, 20] : List ℝ).getD (0 + 1) 0) = 10 from rfl,
    show (([0, 10, 20] : List ℝ).getD 0 0) = 0 from rfl,
    show (([((0 : ℝ), (0 : ℝ)), (10, 0), (10, 10)] : List Point).getD 0 (0, 0)) = (0, 0) from rfl,
    show (([((0 : ℝ), (0 : ℝ)), (10, 0), (10, 10)] : List Point).getD (0 + 1) (0, 0)) = (10, 0) from rfl,
    if_pos (by norm_num : (10 : ℝ) ≠ 0)]
  unfold lerpPoint
  norm_num

theorem interpolate_c1_half :
    interpolate_path [((0 : ℝ), (0 : ℝ)), (10, 0), (10, 10)] (1 / 2) = (10, 0) := by
  have hch := interpolate_path_of_mem_segment
    [((0 : ℝ), (0 : ℝ)), (10, 0), (10, 10)] (1 / 2) 0 (by norm_num)
    (by rw [distances_c1, total_distance_c1]
        show (0 : ℝ) ≤ 1 / 2 * 20
        norm_num)
    (by rw [distances_c1, total_distance_c1]
        show (1 : ℝ) / 2 * 20 ≤ 10
        norm_num)
  rw [distances_c1, total_distance_c1] at hch
  rw [hch]
  rw [show (([0, 10, 20] : List ℝ).getD (0 + 1) 0) = 10 from rfl,
    show (([0, 10, 20] : List ℝ).getD 0 0) = 0 from rfl,
    show (([((0 : ℝ), (0 : ℝ)), (10, 0), (10, 10)] : List Point).getD 0 (0, 0)) = (0, 0) from rfl,
    show (([((0 : ℝ), (0 : ℝ)), (10, 0), (10, 10)] : List Point).getD (0 + 1) (0, 0)) = (10, 0) from rfl,
    if_pos (by norm_num : (10 : ℝ) ≠ 0)]
  unfold lerpPoint
  norm_num

/-- Claim C1: the spec's concrete scenario on waypoints
[(0,0),(10,0),(10,10)]: total length 20; interpolation at progress 0, 1/4,
1/2 and 1 returns (0,0), (5,0), exactly the waypoint (10,0), and (10,10);
and with amplitude 15 and angle period A = 4 the angle at tick 1 is
15*sin(pi/2) = 15 and the angle at tick 2 is 15*sin(pi) = 0. -/
theorem claim_C1 :
    total_distance [((0 : ℝ), (0 : ℝ)), (10, 0), (10, 10)] = 20 ∧
    interpolate_path [((0 : ℝ), (0 : ℝ)), (10, 0), (10, 10)] 0 = (0, 0) ∧
    interpolate_path [((0 : ℝ), (0 : ℝ)), (10, 0), (10, 10)] (1 / 4) = (5, 0) ∧
    interpolate_path [((0 : ℝ), (0 : ℝ)), (10, 0), (10, 10)] (1 / 2) = (10, 0) ∧
    interpolate_path [((0 : ℝ), (0 : ℝ)), (10, 0), (10, 10)] 1 = (10, 10) ∧
    angleOf 15 4 1 = 15 * Real.sin (Real.pi / 2) ∧ angleOf 15 4 1 = 15 ∧
    angleOf 15 4 2 = 15 * Real.sin Real.pi ∧ angleOf 15 4 2 = 0 := by
  refine ⟨total_distance_c1, ?_, interpolate_c1_quarter, interpolate_c1_half, ?_, ?_, ?_, ?_, ?_⟩
  · rw [interpolate_path_zero _ (by norm_num)]
    rfl
  · rw [interpolate_path_one _ (by norm_num)]
    rfl
  · unfold angleOf
    rw [Nat.cast_one, show 2 * Real.pi * (1 : ℝ) / 4 = Real.pi / 2 by ring]
  · unfold angleOf
    rw [Nat.cast_one, show 2 * Real.pi * (1 : ℝ) / 4 = Real.pi / 2 by ring,
      Real.sin_pi_div_two, mul_one]
  · unfold angleOf
    rw [Nat.cast_ofNat, show 2 * Real.pi * (2 : ℝ) / 4 = Real.pi by ring]
  · unfold angleOf
    rw [Nat.cast_ofNat, show 2 * Real.pi * (2 : ℝ) / 4 = Real.pi by ring,
      Real.sin_pi, mul_zero]

/-! ### The source's hardcoded path (claim C10) -/

theorem robotDistances :
    distances robotWaypoints =
      [0, 6112, 6824, 11924, 12724, 17824, 18424, 24536, 26648] := by
  simp only [robotWaypoints, distances, cumdistAux, distance_horiz, distance_vert]
  norm_num

theorem robotTotal : total_distance robotWaypoints = 26648 := by
  unfold total_distance
  rw [robotDistances]
  rfl

theorem robot_angle_ne_zero_of_not_dvd (k : ℕ) (h : ¬ (20 ∣ k)) :
    angleOf 15 40 k ≠ 0 := by
  unfold angleOf
  intro hz
  have hs : Real.sin (2 * Real.pi * (k : ℝ) / 40) = 0 := by
    rcases mul_eq_zero.mp hz with h15 | hs
    · norm_num at h15
    · exact hs
  rw [Real.sin_eq_zero_iff] at hs
  obtain ⟨n, hn⟩ := hs
  have hpi := Real.pi_ne_zero
  have h2 : ((40 : ℝ) * n - 2 * k) * Real.pi = 0 := by
    have hn' : (n : ℝ) * Real.pi * 40 = 2 * Real.pi * (k : ℝ) := by
      field_simp at hn
      linarith [hn]
    ring_nf
    ring_nf at hn'
    linarith [hn']
  rcases mul_eq_zero.mp h2 with h3 | h3
  · have h4 : (20 : ℝ) * n = k := by linarith
    have h5 : (20 * n : ℤ) = (k : ℤ) := by exact_mod_cast h4
    exact h (Int.natCast_dvd_natCast.mp ⟨n, by omega⟩)
  · exact hpi h3
theorem robotPosNe20 : (sampleAt 20).1 ≠ (388, 388) := by
  have hp : progressOf 200 20 = (20 : ℝ) / 200 := by
    unfold progressOf
    norm_num
  show interpolate_path robotWaypoints (progressOf 200 20) ≠ (388, 388)
  rw [hp]
  have hch := interpolate_path_of_mem_segment robotWaypoints ((20 : ℝ) / 200) 0
    (by norm_num [robotWaypoints])
    (by rw [robotDistances, robotTotal]
        show (0 : ℝ) ≤ 20 / 200 * 26648
        norm_num)
    (by rw [robotDistances, robotTotal]
        show (20 : ℝ) / 200 * 26648 ≤ 6112
        norm_num)
  rw [robotDistances, robotTotal] at hch
  rw [show (robotWaypoints.getD 0 (0, 0)) = ((388 : ℝ), (388 : ℝ)) from rfl,
    show (robotWaypoints.getD (0 + 1) (0, 0)) = ((388 : ℝ), (6500 : ℝ)) from rfl,
    show (([0, 6112, 6824, 11924, 12724, 17824, 18424, 24536, 26648] : List ℝ).getD (0 + 1) 0) = 6112 from rfl,
    show (([0, 6112, 6824, 11924, 12724, 17824, 18424, 24536, 26648] : List ℝ).getD 0 0) = 0 from rfl,
    if_pos (by norm_num : (6112 : ℝ) ≠ 0)] at hch
  rw [hch]
  intro hc
  have hsnd := congrArg Prod.snd hc
  norm_num [lerpPoint] at hsnd

theorem robotPosNe40 : (sampleAt 40).1 ≠ (388, 388) := by
  have hp : progressOf 200 40 = (40 : ℝ) / 200 := by
    unfold progressOf
    norm_num
  show interpolate_path robotWaypoints (progressOf 200 40) ≠ (388, 388)
  rw [hp]
  have hch := interpolate_path_of_mem_segment robotWaypoints ((40 : ℝ) / 200) 0
    (by norm_num [robotWaypoints])
    (by rw [robotDistances, robotTotal]
        show (0 : ℝ) ≤ 40 / 200 * 26648
        norm_num)
    (by rw [robotDistances, robotTotal]
        show (40 : ℝ) / 200 * 26648 ≤ 6112
        norm_num)
  rw [robotDistances, robotTotal] at hch
  rw [show (robotWaypoints.getD 0 (0, 0)) = ((388 : ℝ), (388 : ℝ)) from rfl,
    show (robotWaypoints.getD (0 + 1) (0, 0)) = ((388 : ℝ), (6500 : ℝ)) from rfl,
    show (([0, 6112, 6824, 11924, 12724, 17824, 18424, 24536, 26648] : List ℝ).getD (0 + 1) 0) = 6112 from rfl,
    show (([0, 6112, 6824, 11924, 12724, 17824, 18424, 24536, 26648] : List ℝ).getD 0 0) = 0 from rfl,
    if_pos (by norm_num : (6112 : ℝ) ≠ 0)] at hch
  rw [hch]
  intro hc
  have hsnd := congrArg Prod.snd hc
  norm_num [lerpPoint] at hsnd

theorem robotPosNe60 : (sampleAt 60).1 ≠ (388, 388) := by
  have hp : progressOf 200 60 = (60 : ℝ) / 200 := by
    unfold progressOf
    norm_num
  show interpolate_path robotWaypoints (progressOf 200 60) ≠ (388, 388)
  rw [hp]
  have hch := interpolate_path_of_mem_segment robotWaypoints ((60 : ℝ) / 200) 2
    (by norm_num [robotWaypoints])
    (by rw [robotDistances, robotTotal]
        show (6824 : ℝ) ≤ 60 / 200 * 26648
        norm_num)
    (by rw [robotDistances, robotTotal]
        show (60 : ℝ) / 200 * 26648 ≤ 11924
        norm_num)
  rw [show (robotWaypoints.getD 2 (0, 0)) = ((1100 : ℝ), (6500 : ℝ)) from rfl,
    show (robotWaypoints.getD (2 + 1) (0, 0)) = ((1100 : ℝ), (1400 : ℝ)) from rfl] at hch
  rw [hch]
  intro hc
  have hfst := congrArg Prod.fst hc
  norm_num [lerpPoint] at hfst

theorem robotPosNe80 : (sampleAt 80).1 ≠ (388, 388) := by
  have hp : progressOf 200 80 = (80 : ℝ) / 200 := by
    unfold progressOf
    norm_num
  show interpolate_path robotWaypoints (progressOf 200 80) ≠ (388, 388)
  rw [hp]
  have hch := interpolate_path_of_mem_segment robotWaypoints ((80 : ℝ) / 200) 2
    (by norm_num [robotWaypoints])
    (by rw [robotDistances, robotTotal]
        show (6824 : ℝ) ≤ 80 / 200 * 26648
        norm_num)
    (by rw [robotDistances, robotTotal]
        show (80 : ℝ) / 200 * 26648 ≤ 11924
        norm_num)
  rw [show (robotWaypoints.getD 2 (0, 0)) = ((1100 : ℝ), (6500 : ℝ)) from rfl,
    show (robotWaypoints.getD (2 + 1) (0, 0)) = ((1100 : ℝ), (1400 : ℝ)) from rfl] at hch
  rw [hch]
  intro hc
  have hfst := congrArg Prod.fst hc
  norm_num [lerpPoint] at hfst

theorem robotPosNe100 : (sampleAt 100).1 ≠ (388, 388) := by
  have hp : progressOf 200 100 = (100 : ℝ) / 200 := by
    unfold progressOf
    norm_num
  show interpolate_path robotWaypoints (progressOf 200 100) ≠ (388, 388)
  rw [hp]
  have hch := interpolate_path_of_mem_segment robotWaypoints ((100 : ℝ) / 200) 4
    (by norm_num [robotWaypoints])
    (by rw [robotDistances, robotTotal]
        show (12724 : ℝ) ≤ 100 / 200 * 26648
        norm_num)
    (by rw [robotDistances, robotTotal]
        show (100 : ℝ) / 200 * 26648 ≤ 17824
        norm_num)
  rw [show (robotWaypoints.getD 4 (0, 0)) = ((1900 : ℝ), (1400 : ℝ)) from rfl,
    show (robotWaypoints.getD (4 + 1) (0, 0)) = ((1900 : ℝ), (6500 : ℝ)) from rfl] at hch
  rw [hch]
  intro hc
  have hfst := congrArg Prod.fst hc
  norm_num [lerpPoint] at hfst

theorem robotPosNe120 : (sampleAt 120).1 ≠ (388, 388) := by
  have hp : progressOf 200 120 = (120 : ℝ) / 200 := by
    unfold progressOf
    norm_num
  show interpolate_path robotWaypoints (progressOf 200 120) ≠ (388, 388)
  rw [hp]
  have hch := interpolate_path_of_mem_segment robotWaypoints ((120 : ℝ) / 200) 4
    (by norm_num [robotWaypoints])
    (by rw [robotDistances, robotTotal]
        show (12724 : ℝ) ≤ 120 / 200 * 26648
        norm_num)
    (by rw [robotDistances, robotTotal]
        show (120 : ℝ) / 200 * 26648 ≤ 17824
        norm_num)
  rw [show (robotWaypoints.getD 4 (0, 0)) = ((1900 : ℝ), (1400 : ℝ)) from rfl,
    show (robotWaypoints.getD (4 + 1) (0, 0)) = ((1900 : ℝ), (6500 : ℝ)) from rfl] at hch
  rw [hch]
  intro hc
  have hfst := congrArg Prod.fst hc
  norm_num [lerpPoint] at hfst

theorem robotPosNe140 : (sampleAt 140).1 ≠ (388, 388) := by
  have hp : progressOf 200 140 = (140 : ℝ) / 200 := by
    unfold progressOf
    norm_num
  show interpolate_path robotWaypoints (progressOf 200 140) ≠ (388, 388)
  rw [hp]
  have hch := interpolate_path_of_mem_segment robotWaypoints ((140 : ℝ) / 200) 6
    (by norm_num [robotWaypoints])
    (by rw [robotDistances, robotTotal]
        show (18424 : ℝ) ≤ 140 / 200 * 26648
        norm_num)
    (by rw [robotDistances, robotTotal]
        show (140 : ℝ) / 200 * 26648 ≤ 24536
        norm_num)
  rw [show (robotWaypoints.getD 6 (0, 0)) = ((2500 : ℝ), (6500 : ℝ)) from rfl,
    show (robotWaypoints.getD (6 + 1) (0, 0)) = ((2500 : ℝ), (388 : ℝ)) from rfl] at hch
  rw [hch]
  intro hc
  have hfst := congrArg Prod.fst hc
  norm_num [lerpPoint] at hfst

theorem robotPosNe160 : (sampleAt 160).1 ≠ (388, 388) := by
  have hp : progressOf 200 160 = (160 : ℝ) / 200 := by
    unfold progressOf
    norm_num
  show interpolate_path robotWaypoints (progressOf 200 160) ≠ (388, 388)
  rw [hp]
  have hch := interpolate_path_of_mem_segment robotWaypoints ((160 : ℝ) / 200) 6
    (by norm_num [robotWaypoints])
    (by rw [robotDistances, robotTotal]
        show (18424 : ℝ) ≤ 160 / 200 * 26648
        norm_num)
    (by rw [robotDistances, robotTotal]
        show (160 : ℝ) / 200 * 26648 ≤ 24536
        norm_num)
  rw [show (robotWaypoints.getD 6 (0, 0)) = ((2500 : ℝ), (6500 : ℝ)) from rfl,
    show (robotWaypoints.getD (6 + 1) (0, 0)) = ((2500 : ℝ), (388 : ℝ)) from rfl] at hch
  rw [hch]
  intro hc
  have hfst := congrArg Prod.fst hc
  norm_num [lerpPoint] at hfst

theorem robotPosNe180 : (sampleAt 180).1 ≠ (388, 388) := by
  have hp : progressOf 200 180 = (180 : ℝ) / 200 := by
    unfold progressOf
    norm_num
  show interpolate_path robotWaypoints (progressOf 200 180) ≠ (388, 388)
  rw [hp]
  have hch := interpolate_path_of_mem_segment robotWaypoints ((180 : ℝ) / 200) 6
    (by norm_num [robotWaypoints])
    (by rw [robotDistances, robotTotal]
        show (18424 : ℝ) ≤ 180 / 200 * 26648
        norm_num)
    (by rw [robotDistances, robotTotal]
        show (180 : ℝ) / 200 * 26648 ≤ 24536
        norm_num)
  rw [show (robotWaypoints.getD 6 (0, 0)) = ((2500 : ℝ), (6500 : ℝ)) from rfl,
    show (robotWaypoints.getD (6 + 1) (0, 0)) = ((2500 : ℝ), (388 : ℝ)) from rfl] at hch
  rw [hch]
  intro hc
  have hfst := congrArg Prod.fst hc
  norm_num [lerpPoint] at hfst

/-- Claim C10: the loop increments its counter before computing each sample,
so the first published sample corresponds to counter 1 — progress 1/200 and
the nonzero angle 15*sin(2*pi/40) — not counter 0; a sample located at the
first waypoint (388,388) with angle 0 is never the initial emission and first
occurs at counter 200, when the sawtooth wraps. -/
theorem claim_C10 :
    (loopIteration 0).2 = sampleAt 1 ∧
    progressOf 200 1 = 1 / 200 ∧
    (sampleAt 1).2 = 15 * Real.sin (2 * Real.pi / 40) ∧
    (sampleAt 1).2 ≠ 0 ∧
    (sampleAt 200).1 = (388, 388) ∧
    (sampleAt 200).2 = 0 ∧
    ∀ k : ℕ, 1 ≤ k → k < 200 →
      ¬((sampleAt k).1 = (388, 388) ∧ (sampleAt k).2 = 0) := by
  refine ⟨rfl, ?_, ?_, ?_, ?_, ?_, ?_⟩
  · unfold progressOf
    norm_num
  · show angleOf 15 40 1 = 15 * Real.sin (2 * Real.pi / 40)
    unfold angleOf
    rw [Nat.cast_one, mul_one]
  · have ha : (sampleAt 1).2 = 15 * Real.sin (Real.pi / 20) := by
      show angleOf 15 40 1 = 15 * Real.sin (Real.pi / 20)
      unfold angleOf
      rw [Nat.cast_one, show 2 * Real.pi * (1 : ℝ) / 40 = Real.pi / 20 by ring]
    rw [ha]
    have hs : 0 < Real.sin (Real.pi / 20) :=
      Real.sin_pos_of_pos_of_lt_pi (by positivity) (by linarith [Real.pi_pos])
    exact ne_of_gt (mul_pos (by norm_num) hs)
  · show interpolate_path robotWaypoints (progressOf 200 200) = (388, 388)
    have hp : progressOf 200 200 = 0 := by
      unfold progressOf
      norm_num
    rw [hp, interpolate_path_zero robotWaypoints (by norm_num [robotWaypoints])]
    rfl
  · show angleOf 15 40 200 = 0
    unfold angleOf
    rw [show 2 * Real.pi * ((200 : ℕ) : ℝ) / 40 = (10 : ℕ) * Real.pi by push_cast; ring,
      Real.sin_nat_mul_pi, mul_zero]
  · rintro k hk1 hk2 ⟨hpos, hang⟩
    by_cases hdvd : 20 ∣ k
    · obtain ⟨j, hj⟩ := hdvd
      subst hj
      have hj1 : 1 ≤ j := by omega
      have hj9 : j ≤ 9 := by omega
      interval_cases j
      · exact robotPosNe20 (by norm_num at hpos; exact hpos)
      · exact robotPosNe40 (by norm_num at hpos; exact hpos)
      · exact robotPosNe60 (by norm_num at hpos; exact hpos)
      · exact robotPosNe80 (by norm_num at hpos; exact hpos)
      · exact robotPosNe100 (by norm_num at hpos; exact hpos)
      · exact robotPosNe120 (by norm_num at hpos; exact hpos)
      · exact robotPosNe140 (by norm_num at hpos; exact hpos)
      · exact robotPosNe160 (by norm_num at hpos; exact hpos)
      · exact robotPosNe180 (by norm_num at hpos; exact hpos)
    · exact robot_angle_ne_zero_of_not_dvd k hdvd hang
